import Mathlib

/-!
Verification of the incremental-analysis pipeline of the `explain` repository.

The TypeScript sources under `src/` are shallowly embedded below:

* `src/cache.ts` — `readCache`, `createExplanationCacheKey`, `shouldExplainEntity`
* `src/deps.ts` (second document of `cache.ts`) — `buildDependencyEdges`, `buildGraph`
* `src/changelog.ts` — `buildChangelog`
* `src/discovery.ts` — `expandBraces`, `globToRegex`, `compilePatterns`, `discoverFiles`
* `src/parser.ts` — `buildEntity`, `extractFunctionDeclarations`
* `src/cli.ts` — the per-entity body of the main loop (`processEntity` below)

JavaScript `Record<string, string>` values are embedded as association lists
`List (String × String)` with JS-object lookup (`jsGet`); `undefined` becomes
`Option.none`; JS string truthiness (`!x` true for `undefined` and `""`) is
`jsFalsyStr`; a JS `Set` built from a list is `jsDedup` (first-occurrence
order, like `Set` insertion order).  The SHA-256 digest function is kept
abstract: every definition that hashes takes an explicit `hash : String →
String` parameter, and statements about identifiers are made about the hash
*inputs*, exactly as the spec's invariants are phrased.
-/

namespace Explain

/-- JS object lookup `m[k]` on an association list: the first binding wins,
`undefined` is `none`. -/
def jsGet (m : List (String × String)) (k : String) : Option String :=
  (m.find? (fun kv => kv.1 == k)).map Prod.snd

/-- JS string-or-undefined falsiness: `!x` is true exactly for `undefined`
and the empty string. -/
def jsFalsyStr : Option String → Bool
  | none => true
  | some s => s == ""

/-- Auxiliary for `jsDedup`: keep the first occurrence of each element,
skipping anything already seen. -/
def jsDedupAux : List String → List String → List String
  | [], _ => []
  | x :: xs, seen => if seen.contains x then jsDedupAux xs seen else x :: jsDedupAux xs (x :: seen)

/-- `[...new Set(l)]`: deduplicate keeping first occurrences in order. -/
def jsDedup (l : List String) : List String := jsDedupAux l []

/-- `src/types.ts` `EntityKind` (string literal union). -/
inductive EntityKind where
  | function | class_ | method | component | interface | type_ | enum | const | route | module
deriving DecidableEq, Repr

/-- The string each `EntityKind` tag denotes in the source. -/
def kindString : EntityKind → String
  | .function => "function"
  | .class_ => "class"
  | .method => "method"
  | .component => "component"
  | .interface => "interface"
  | .type_ => "type"
  | .enum => "enum"
  | .const => "const"
  | .route => "route"
  | .module => "module"

/-- Source span of an entity (`loc` in `src/types.ts`). -/
structure Loc where
  startLine : Nat
  endLine : Nat
deriving DecidableEq, Repr

/-- `src/types.ts` `Entity`, minus the run-phase `explanation`/`sourceUrl`
fields that `src/parser.ts` omits (`Omit<Entity, "explanation" | "sourceUrl">`). -/
structure Entity where
  id : String
  filePath : String
  name : String
  kind : EntityKind
  exported : Bool
  loc : Loc
  signature : Option String
  contentHash : String
  snippet : String
deriving DecidableEq, Repr

/-- Status of a persisted explanation cache entry (`"ok" | "failed"`). -/
inductive CachedStatus where
  | ok | failed
deriving DecidableEq, Repr

/-- A value of `CacheSnapshot.explanations`. -/
structure CacheEntry where
  text : String
  status : CachedStatus
  errorMessage : Option String
deriving DecidableEq, Repr

/-- `CacheSnapshot.lastSuccessfulSnapshot` in `src/types.ts`. -/
structure LastSuccessfulSnapshot where
  entityHashes : List (String × String)
  entityIds : List String
deriving DecidableEq, Repr

/-- `src/types.ts` `CacheSnapshot`.  `lastSuccessfulSnapshot` is wrapped in
`Option` because `buildChangelog` guards against it being absent from a
deserialized cache file (`previousCache?.lastSuccessfulSnapshot; if (!prev)`). -/
structure CacheSnapshot where
  snapshotHash : String
  generatedAt : String
  fileHashes : List (String × String)
  entityHashes : List (String × String)
  explanations : List (String × CacheEntry)
  lastSuccessfulSnapshot : Option LastSuccessfulSnapshot
deriving DecidableEq, Repr

/-- `src/cache.ts` `readCache`: the file system read is abstracted to the
optional file content (`none` = file missing), and `JSON.parse` plus the cast
to `CacheSnapshot` to a fallible `parse` oracle; the `try/catch` that maps
any parse failure to `null` becomes the `Except.error` branch. -/
def readCache (file : Option String) (parse : String → Except String CacheSnapshot) :
    Option CacheSnapshot :=
  match file with
  | none => none
  | some raw =>
    match parse raw with
    | .ok snapshot => some snapshot
    | .error _ => none

/-- `src/cache.ts` `createExplanationCacheKey`:
`` `${entityHash}:${model}:${promptVersion}` ``. -/
def createExplanationCacheKey (entityHash model promptVersion : String) : String :=
  entityHash ++ ":" ++ model ++ ":" ++ promptVersion

/-- `src/cache.ts` `shouldExplainEntity`. -/
def shouldExplainEntity (entity : Entity) (fileHashes : List (String × String))
    (previousCache : Option CacheSnapshot) (force : Bool) : Bool :=
  if force then true
  else
    match previousCache with
    | none => true
    | some prev =>
      let prevFileHash := jsGet prev.fileHashes entity.filePath
      let currentFileHash := jsGet fileHashes entity.filePath
      if jsFalsyStr prevFileHash then true
      else if prevFileHash ≠ currentFileHash then true
      else
        let prevEntityHash := jsGet prev.entityHashes entity.id
        decide (prevEntityHash ≠ some entity.contentHash)

/-- `src/deps.ts` `DependencyEdge`. -/
structure DependencyEdge where
  «from» : String
  «to» : String
deriving DecidableEq, Repr

/-- `src/deps.ts` `GraphData`. -/
structure GraphData where
  nodes : List String
  edges : List DependencyEdge
  truncated : Bool
  omittedNodeCount : Nat
deriving DecidableEq, Repr

/-- `src/deps.ts` `buildGraph`.  `new Set(files.slice(0, maxNodes))` becomes
`jsDedup (files.take maxNodes)`; `[...kept]` is that list, `kept.size` its
length, `kept.has` its `contains`. -/
def buildGraph (files : List String) (edges : List DependencyEdge) (maxNodes : Nat) :
    GraphData :=
  if files.length ≤ maxNodes then
    { nodes := files, edges := edges, truncated := false, omittedNodeCount := 0 }
  else
    let kept := jsDedup (files.take maxNodes)
    { nodes := kept
      edges := edges.filter (fun edge => kept.contains edge.from && kept.contains edge.to)
      truncated := true
      omittedNodeCount := files.length - kept.length }

/-- `src/types.ts` `ChangelogData`. -/
structure ChangelogData where
  addedEntities : List String
  removedEntities : List String
  changedEntities : List String
  summaryText : String
deriving DecidableEq, Repr

/-- `src/changelog.ts` `buildChangelog`.  `Object.keys` of an embedded record
is the list of its keys in order; `new Set(...)` is `jsDedup`. -/
def buildChangelog (currentEntityHashes : List (String × String))
    (previousCache : Option CacheSnapshot) : ChangelogData :=
  match previousCache.bind (fun c => c.lastSuccessfulSnapshot) with
  | none =>
    let ids := currentEntityHashes.map Prod.fst
    { addedEntities := ids
      removedEntities := []
      changedEntities := []
      summaryText := "Initial snapshot: " ++ toString ids.length ++ " entities analyzed." }
  | some prev =>
    let prevHashes := prev.entityHashes
    let currentIds := jsDedup (currentEntityHashes.map Prod.fst)
    let prevIds := jsDedup (prevHashes.map Prod.fst)
    let addedEntities := currentIds.filter (fun id => !(prevIds.contains id))
    let removedEntities := prevIds.filter (fun id => !(currentIds.contains id))
    let changedEntities := currentIds.filter (fun id =>
      !(jsFalsyStr (jsGet prevHashes id)) &&
        decide (jsGet prevHashes id ≠ jsGet currentEntityHashes id))
    { addedEntities := addedEntities
      removedEntities := removedEntities
      changedEntities := changedEntities
      summaryText := "Changed since last successful run: +" ++ toString addedEntities.length ++
        " / -" ++ toString removedEntities.length ++ " / ~" ++ toString changedEntities.length }

/-! ## Path matcher (`src/discovery.ts`) -/

/-- The opening brace character, `Char.ofNat 123`. -/
def braceOpen : Char := Char.ofNat 123

/-- The closing brace character, `Char.ofNat 125`. -/
def braceClose : Char := Char.ofNat 125

/-- One compiled token of `globToRegex`'s output regex: an escaped literal
character, `[^/]*` (from `*`), `(?:.*/)?` (from `**/`), or `.*` (from `**`). -/
inductive GlobPart where
  | lit (c : Char)
  | star
  | globstarSlash
  | globstarAll
deriving DecidableEq, Repr

/-- `src/discovery.ts` `globToRegex`, compiled to tokens instead of a regex
source string: the loop consumes `**/`, then `**`, then `*`, and escapes any
other character to a literal.  `normalizeSlashes` on the pattern is the
identity on forward-slash patterns (POSIX `path.sep` is `/`). -/
def globCompile : List Char → List GlobPart
  | [] => []
  | '*' :: '*' :: '/' :: rest => .globstarSlash :: globCompile rest
  | '*' :: '*' :: rest => .globstarAll :: globCompile rest
  | '*' :: rest => .star :: globCompile rest
  | c :: rest => .lit c :: globCompile rest

/-- Suffixes of `s` reachable by deleting a leading run of non-separator
characters: the candidate continuation points of `[^/]*`. -/
def starSuffixes : List Char → List (List Char)
  | [] => [[]]
  | c :: cs => (c :: cs) :: (if c = '/' then [] else starSuffixes cs)

/-- Suffixes of `s` that start right after some `/` in `s`: the candidate
continuation points of `.*/`. -/
def slashSuffixes : List Char → List (List Char)
  | [] => []
  | c :: cs => (if c = '/' then [cs] else []) ++ slashSuffixes cs

/-- Anchored matching of a compiled token list against a path, the semantics
of `RegExp.test` on `globToRegex`'s `^...$` regex: `lit` consumes one equal
character, `star` (`[^/]*`) a run of non-separators, `globstarSlash`
(`(?:.*/)?`) nothing or any prefix ending in `/`, `globstarAll` (`.*`) any
prefix. -/
def gmatch : List GlobPart → List Char → Bool
  | [] => fun s => s.isEmpty
  | .lit c :: ps => fun s =>
    match s with
    | [] => false
    | d :: ds => c == d && gmatch ps ds
  | .star :: ps => fun s => (starSuffixes s).any (gmatch ps)
  | .globstarSlash :: ps => fun s => gmatch ps s || (slashSuffixes s).any (gmatch ps)
  | .globstarAll :: ps => fun s => s.tails.any (gmatch ps)

/-- The leftmost match of the regex `\x7b([^\x7d]+)\x7d` in a pattern:
`some (pre, content, suf)` splits the pattern as `pre ++ open ++ content ++
close ++ suf` with `content` nonempty and free of closing braces.  Mirrors
`pattern.match(/\{([^}]+)\}/)` in `expandBraces`. -/
def braceSplit : List Char → Option (List Char × List Char × List Char)
  | [] => none
  | c :: rest =>
    if c = braceOpen then
      let content := rest.takeWhile (fun d => d ≠ braceClose)
      let after := rest.dropWhile (fun d => d ≠ braceClose)
      match after, content with
      | _ :: suf, _ :: _ => some ([], content, suf)
      | _, _ => (braceSplit rest).map (fun r => (c :: r.1, r.2.1, r.2.2))
    else
      (braceSplit rest).map (fun r => (c :: r.1, r.2.1, r.2.2))

/-- JS `String.prototype.split(",")`: split at every comma, keeping empty
pieces. -/
def splitOnComma : List Char → List (List Char)
  | [] => [[]]
  | c :: rest =>
    if c = ',' then [] :: splitOnComma rest
    else
      match splitOnComma rest with
      | [] => [[c]]
      | h :: t => (c :: h) :: t

/-- `src/discovery.ts` `expandBraces`: expand the first brace group (if any)
into one pattern per comma-separated alternative. -/
def expandBraces (pattern : List Char) : List (List Char) :=
  match braceSplit pattern with
  | none => [pattern]
  | some (pre, content, suf) => (splitOnComma content).map (fun entry => pre ++ entry ++ suf)

/-- `src/discovery.ts` `compilePatterns`:
`patterns.flatMap((pattern) => expandBraces(pattern).map(globToRegex))`. -/
def compilePatterns (patterns : List (List Char)) : List (List GlobPart) :=
  patterns.flatMap (fun pattern => (expandBraces pattern).map globCompile)

/-- The pure core of `src/discovery.ts` `discoverFiles`: directory traversal
and hashing abstracted away, it receives the forward-slash-normalized
relative paths of the tree and keeps those matched by some include pattern
and then drops those matched by some exclude pattern (the two `.filter`
calls). -/
def discoverFiles (tree : List (List Char)) (includePatterns excludePatterns : List (List Char)) :
    List (List Char) :=
  let includeRegexes := compilePatterns includePatterns
  let excludeRegexes := compilePatterns excludePatterns
  (tree.filter (fun file => includeRegexes.any (fun pattern => gmatch pattern file))).filter
    (fun file => !(excludeRegexes.any (fun pattern => gmatch pattern file)))

/-! ## Entity identity builder (`src/parser.ts`) -/

/-- The character for decimal digit `d < 10` (any larger argument is clamped
to `9`; it never receives one). -/
def digitChar (d : Nat) : Char :=
  if d = 0 then '0' else if d = 1 then '1' else if d = 2 then '2' else if d = 3 then '3'
  else if d = 4 then '4' else if d = 5 then '5' else if d = 6 then '6' else if d = 7 then '7'
  else if d = 8 then '8' else '9'

/-- Fueled decimal printer (most significant digit first). -/
def natToCharsFuel : Nat → Nat → List Char
  | 0, _ => []
  | fuel + 1, n =>
    if n < 10 then [digitChar n] else natToCharsFuel fuel (n / 10) ++ [digitChar (n % 10)]

/-- Decimal digit characters of `n`, as JS number-to-string interpolation
produces them (`0` prints as `"0"`, no leading zeros). -/
def natChars (n : Nat) : List Char := natToCharsFuel (n + 1) n

/-- Decimal rendering of `n` as a string. -/
def natStr (n : Nat) : String := ⟨natChars n⟩

/-- The hash input of `buildEntity`'s `id` in `src/parser.ts`:
`` `${filePath}:${name}:${kind}:${loc.startLine}:${loc.endLine}:${node.getText()}` ``. -/
def stableInput (filePath name : String) (kind : EntityKind) (startLine endLine : Nat)
    (text : String) : String :=
  filePath ++ ":" ++ name ++ ":" ++ kindString kind ++ ":" ++ natStr startLine ++ ":" ++
    natStr endLine ++ ":" ++ text

/-- The syntactic class of a ts-morph node, as far as `symbolKindFromNode`
and `buildEntity` in `src/parser.ts` inspect it. -/
inductive NodeKind where
  | functionDecl | arrowFunction | classDecl | methodDecl | interfaceDecl
  | typeAliasDecl | enumDecl | variableDecl
deriving DecidableEq, Repr

/-- An extractor node: its kind, source text (`getText()`), line span, the
class name for class nodes (`getName()`), and the rendered
`functionSignature` for function-like nodes. -/
structure Node where
  nodeKind : NodeKind
  text : String
  loc : Loc
  className : Option String
  fnSignature : String
deriving DecidableEq, Repr

/-- `src/parser.ts` `isLikelyComponent`: `/^[A-Z]/.test(name)`. -/
def isLikelyComponent (name : String) : Bool :=
  match name.data with
  | [] => false
  | c :: _ => 'A' ≤ c && c ≤ 'Z'

/-- `src/parser.ts` `symbolKindFromNode`. -/
def symbolKindFromNode (node : Node) (name : String) : EntityKind :=
  match node.nodeKind with
  | .functionDecl | .arrowFunction =>
    if isLikelyComponent name then .component else .function
  | .classDecl => .class_
  | .methodDecl => .method
  | .interfaceDecl => .interface
  | .typeAliasDecl => .type_
  | .enumDecl => .enum
  | .variableDecl => .const

/-- `src/parser.ts` `buildEntity`, with the SHA-256 digest abstracted as
`hash`. -/
def buildEntity (hash : String → String) (filePath : String) (node : Node) (name : String)
    (exported : Bool) : Entity :=
  let loc := node.loc
  let signature : Option String :=
    match node.nodeKind with
    | .functionDecl | .arrowFunction | .methodDecl => some node.fnSignature
    | .classDecl => some ("class " ++ (node.className.getD name))
    | _ => none
  let kind := symbolKindFromNode node name
  { id := hash (stableInput filePath name kind loc.startLine loc.endLine node.text)
    filePath := filePath
    name := name
    kind := kind
    exported := exported
    loc := loc
    signature := signature
    contentHash := hash node.text
    snippet := node.text }

/-- A top-level function declaration as `extractFunctionDeclarations` reads
it: optional name (`fn.getName()`) and its own `isExported()`. -/
structure FnDecl where
  name : Option String
  isExported : Bool
  text : String
  loc : Loc
  fnSignature : String
deriving DecidableEq, Repr

/-- A class method: its name, the result of `method.isExported()` on its own
syntax, and its node data. -/
structure MethodDecl where
  name : String
  isExported : Bool
  text : String
  loc : Loc
  fnSignature : String
deriving DecidableEq, Repr

/-- A class property: present `arrowInitializer` models
`prop.hasInitializer() && prop.getInitializerIfKind(SyntaxKind.ArrowFunction)`,
carrying the arrow-function node's data. -/
structure PropDecl where
  name : String
  isExported : Bool
  arrowInitializer : Option (String × Loc × String)
deriving DecidableEq, Repr

/-- A class declaration together with its members. -/
structure ClassDecl where
  className : Option String
  isExported : Bool
  text : String
  loc : Loc
  methods : List MethodDecl
  props : List PropDecl
deriving DecidableEq, Repr

/-- An interface, type-alias or enum declaration. -/
structure NamedDecl where
  name : String
  isExported : Bool
  text : String
  loc : Loc
deriving DecidableEq, Repr

/-- A variable declaration's initializer: either an arrow function (with its
node data) or some other expression. -/
inductive VarInit where
  | arrow (text : String) (loc : Loc) (fnSignature : String)
  | other
deriving DecidableEq, Repr

/-- A variable declaration: `statementExported` is
`decl.getVariableStatement()?.isExported() ?? false`. -/
structure VarDecl where
  name : String
  statementExported : Bool
  init : Option VarInit
  text : String
  loc : Loc
deriving DecidableEq, Repr

/-- Everything `extractFunctionDeclarations` reads from a ts-morph
`SourceFile`, in traversal order. -/
structure SourceFileModel where
  functions : List FnDecl
  classes : List ClassDecl
  interfaces : List NamedDecl
  typeAliases : List NamedDecl
  enums : List NamedDecl
  variableDeclarations : List VarDecl
deriving DecidableEq, Repr

/-- The node of a top-level function declaration. -/
def fnNode (fn : FnDecl) : Node := ⟨.functionDecl, fn.text, fn.loc, none, fn.fnSignature⟩

/-- The node of a class declaration. -/
def classNode (k : ClassDecl) : Node := ⟨.classDecl, k.text, k.loc, k.className, ""⟩

/-- The node of a class method. -/
def methodNode (m : MethodDecl) : Node := ⟨.methodDecl, m.text, m.loc, none, m.fnSignature⟩

/-- The node of an arrow function (property initializer or variable
initializer). -/
def arrowNode (text : String) (loc : Loc) (fnSignature : String) : Node :=
  ⟨.arrowFunction, text, loc, none, fnSignature⟩

/-- The entities contributed by one class in `extractFunctionDeclarations`:
the class itself, then its methods (named `ClassName.method`, exported flag
from `method.isExported()`), then its arrow-function properties. -/
def extractClassEntities (hash : String → String) (filePath : String) (k : ClassDecl) :
    List Entity :=
  let className := k.className.getD "AnonymousClass"
  buildEntity hash filePath (classNode k) className k.isExported ::
    (k.methods.map (fun m =>
      buildEntity hash filePath (methodNode m) (className ++ "." ++ m.name) m.isExported) ++
     k.props.filterMap (fun p =>
      p.arrowInitializer.map (fun a =>
        buildEntity hash filePath (arrowNode a.1 a.2.1 a.2.2) (className ++ "." ++ p.name)
          p.isExported)))

/-- The entities contributed by one variable declaration: skipped without an
initializer; the arrow-function node for arrow initializers, the declaration
node otherwise. -/
def extractVarEntities (hash : String → String) (filePath : String) (decl : VarDecl) :
    List Entity :=
  match decl.init with
  | none => []
  | some (.arrow text loc fnSignature) =>
    [buildEntity hash filePath (arrowNode text loc fnSignature) decl.name decl.statementExported]
  | some .other =>
    [buildEntity hash filePath ⟨.variableDecl, decl.text, decl.loc, none, ""⟩ decl.name
      decl.statementExported]

/-- `src/parser.ts` `extractFunctionDeclarations`: functions (unnamed ones
skipped), classes with methods and arrow properties, interfaces, type
aliases, enums, then variable declarations. -/
def extractFunctionDeclarations (hash : String → String) (filePath : String)
    (sf : SourceFileModel) : List Entity :=
  (sf.functions.filterMap (fun fn =>
      match fn.name with
      | none => none
      | some n =>
        if n = "" then none
        else some (buildEntity hash filePath (fnNode fn) n fn.isExported))) ++
  (sf.classes.flatMap (fun k => extractClassEntities hash filePath k)) ++
  (sf.interfaces.map (fun i =>
      buildEntity hash filePath ⟨.interfaceDecl, i.text, i.loc, none, ""⟩ i.name i.isExported)) ++
  (sf.typeAliases.map (fun a =>
      buildEntity hash filePath ⟨.typeAliasDecl, a.text, a.loc, none, ""⟩ a.name a.isExported)) ++
  (sf.enums.map (fun e =>
      buildEntity hash filePath ⟨.enumDecl, e.text, e.loc, none, ""⟩ e.name e.isExported)) ++
  (sf.variableDeclarations.flatMap (fun decl => extractVarEntities hash filePath decl))

/-! ## Main-loop explanation step (`src/cli.ts` lines 141–156) -/

/-- `const PROMPT_VERSION = "v1"` from `src/llm.ts`. -/
def PROMPT_VERSION : String := "v1"

/-- Status of an entity's explanation in the report
(`"ok" | "failed" | "cached"`). -/
inductive ExplanationStatus where
  | ok | failed | cached
deriving DecidableEq, Repr

/-- `Entity.explanation` in `src/types.ts`. -/
structure Explanation where
  text : String
  status : ExplanationStatus
  errorMessage : Option String
deriving DecidableEq, Repr

/-- Lookup in the in-memory explanation cache (values are objects, hence
always truthy when present). -/
def jsGetEntry (m : List (String × CacheEntry)) (k : String) : Option CacheEntry :=
  (m.find? (fun kv => kv.1 == k)).map Prod.snd

/-- JS object assignment `m[k] = v` on an association list: overwrite an
existing binding, else append. -/
def jsSetEntry (m : List (String × CacheEntry)) (k : String) (v : CacheEntry) :
    List (String × CacheEntry) :=
  if (m.find? (fun kv => kv.1 == k)).isSome then
    m.map (fun kv => if kv.1 == k then (kv.1, v) else kv)
  else m ++ [(k, v)]

/-- `const explanationCache = { ...(previousCache?.explanations ?? {}) }`
from `src/cli.ts`. -/
def initialExplanationCache (previousCache : Option CacheSnapshot) :
    List (String × CacheEntry) :=
  match previousCache with
  | none => []
  | some prev => prev.explanations

/-- One iteration of the `for (const entity of entities)` loop in
`src/cli.ts` `main` (lines 141–156): decide with `shouldExplainEntity`, build
the cache key, serve the cached entry with status `cached` when the decider
says no and an entry exists, otherwise invoke the provider (its outcome is
the `llmResult` oracle) and store the fresh result under the key.  Returns
the entity's explanation and the updated cache. -/
def processEntity (entity : Entity) (fileHashes : List (String × String))
    (previousCache : Option CacheSnapshot) (force : Bool)
    (explanationCache : List (String × CacheEntry)) (model : String)
    (llmResult : Except String String) : Explanation × List (String × CacheEntry) :=
  let shouldExplain := shouldExplainEntity entity fileHashes previousCache force
  let key := createExplanationCacheKey entity.contentHash model PROMPT_VERSION
  match shouldExplain, jsGetEntry explanationCache key with
  | false, some entry =>
    ({ text := entry.text, status := .cached, errorMessage := entry.errorMessage },
     explanationCache)
  | _, _ =>
    match llmResult with
    | .ok text =>
      ({ text := text, status := .ok, errorMessage := none },
       jsSetEntry explanationCache key ⟨text, .ok, none⟩)
    | .error msg =>
      ({ text := "Explanation unavailable due to provider error.", status := .failed,
         errorMessage := some msg },
       jsSetEntry explanationCache key
        ⟨"Explanation unavailable due to provider error.", .failed, some msg⟩)

/-! ## Decimal rendering lemmas -/

/-- Decimal parsing, used to invert `natChars`. -/
def charsToNat (l : List Char) : Nat :=
  l.foldl (fun acc c => acc * 10 + (c.toNat - 48)) 0

theorem digitChar_ne_colon (d : Nat) : digitChar d ≠ ':' := by
  unfold digitChar
  repeat' split
  all_goals decide

theorem digitChar_toNat : ∀ d < 10, (digitChar d).toNat = 48 + d := by decide

theorem charsToNat_append_digit (l : List Char) (c : Char) :
    charsToNat (l ++ [c]) = charsToNat l * 10 + (c.toNat - 48) := by
  simp [charsToNat, List.foldl_append]

theorem natToCharsFuel_roundtrip :
    ∀ fuel n, n < fuel → charsToNat (natToCharsFuel fuel n) = n := by
  intro fuel
  induction fuel with
  | zero => intro n h; omega
  | succ fuel ih =>
    intro n h
    by_cases h10 : n < 10
    · have hd := digitChar_toNat n h10
      simp [natToCharsFuel, h10, charsToNat]
      omega
    · have hdiv : n / 10 < fuel := by omega
      have hrec := ih (n / 10) hdiv
      have hd := digitChar_toNat (n % 10) (Nat.mod_lt n (by omega))
      rw [natToCharsFuel, if_neg h10, charsToNat_append_digit, hrec, hd]
      omega

theorem natChars_injective {m n : Nat} (h : natChars m = natChars n) : m = n := by
  have hm := natToCharsFuel_roundtrip (m + 1) m (by omega)
  have hn := natToCharsFuel_roundtrip (n + 1) n (by omega)
  unfold natChars at h
  rw [h] at hm
  omega

theorem colon_not_mem_natToCharsFuel : ∀ fuel n, ':' ∉ natToCharsFuel fuel n := by
  intro fuel
  induction fuel with
  | zero => intro n; simp [natToCharsFuel]
  | succ fuel ih =>
    intro n
    by_cases h10 : n < 10 <;> simp [natToCharsFuel, h10]
    · exact fun hc => digitChar_ne_colon n hc.symm
    · exact ⟨ih (n / 10), fun hc => digitChar_ne_colon (n % 10) hc.symm⟩

theorem colon_not_mem_natChars (n : Nat) : ':' ∉ natChars n :=
  colon_not_mem_natToCharsFuel (n + 1) n

theorem natStr_data (n : Nat) : (natStr n).data = natChars n := rfl

theorem kindString_data_colon_free (k : EntityKind) : ':' ∉ (kindString k).data := by
  cases k <;> decide

theorem kindString_injective {k k' : EntityKind} (h : kindString k = kindString k') : k = k' := by
  cases k <;> cases k' <;> first | rfl | exact absurd h (by decide)

/-- Splitting a colon-joined pair is unambiguous when the first field is
colon-free. -/
theorem colon_split_inj :
    ∀ (a b ta tb : List Char), ':' ∉ a → ':' ∉ b →
      a ++ ':' :: ta = b ++ ':' :: tb → a = b ∧ ta = tb := by
  intro a
  induction a with
  | nil =>
    intro b ta tb _ hb h
    cases b with
    | nil => simpa using h
    | cons c cs =>
      simp only [List.nil_append, List.cons_append, List.cons.injEq] at h
      exact absurd (h.1 ▸ List.mem_cons_self c cs) hb
  | cons c cs ih =>
    intro b ta tb ha hb h
    cases b with
    | nil =>
      simp only [List.nil_append, List.cons_append, List.cons.injEq] at h
      exact absurd (h.1 ▸ List.mem_cons_self c cs) ha
    | cons d ds =>
      simp only [List.cons_append, List.cons.injEq] at h
      obtain ⟨hcd, hrest⟩ := h
      obtain ⟨h1, h2⟩ := ih ds ta tb (fun hm => ha (List.mem_cons_of_mem c hm))
        (fun hm => hb (List.mem_cons_of_mem d hm)) hrest
      exact ⟨by rw [hcd, h1], h2⟩

theorem colon_data : (":" : String).data = [':'] := rfl

/-- C2 (amended): `buildEntity`'s `id` is a deterministic function of the
tuple `(filePath, name, kind, span.startLine, span.endLine, rawSource)`, and
— provided `filePath` and `name` contain no `:` character, the separator of
the colon-joined hash input — any two entities whose tuples differ in at
least one of the six fields have different hash inputs (and hence different
ids, assuming distinct digests for distinct inputs).  Without that proviso
the colon-joined encoding is ambiguous; see the counterexample. -/
theorem stableInput_injective (f n f' n' : String) (k k' : EntityKind) (s e s' e' : Nat)
    (r r' : String)
    (hf : ':' ∉ f.data) (hn : ':' ∉ n.data) (hf' : ':' ∉ f'.data) (hn' : ':' ∉ n'.data)
    (h : stableInput f n k s e r = stableInput f' n' k' s' e' r') :
    f = f' ∧ n = n' ∧ k = k' ∧ s = s' ∧ e = e' ∧ r = r' := by
  have hd := congrArg String.data h
  simp only [stableInput, String.data_append, natStr_data, colon_data, List.append_assoc,
    List.singleton_append] at hd
  obtain ⟨h1, hd⟩ := colon_split_inj _ _ _ _ hf hf' hd
  obtain ⟨h2, hd⟩ := colon_split_inj _ _ _ _ hn hn' hd
  obtain ⟨h3, hd⟩ := colon_split_inj _ _ _ _ (kindString_data_colon_free k)
    (kindString_data_colon_free k') hd
  obtain ⟨h4, hd⟩ := colon_split_inj _ _ _ _ (colon_not_mem_natChars s)
    (colon_not_mem_natChars s') hd
  obtain ⟨h5, h6⟩ := colon_split_inj _ _ _ _ (colon_not_mem_natChars e)
    (colon_not_mem_natChars e') hd
  exact ⟨String.ext h1, String.ext h2, kindString_injective (String.ext h3),
    natChars_injective h4, natChars_injective h5, String.ext h6⟩

/-- Witness for `stableInput_injective` at a concrete input. -/
theorem stableInput_injective_witness :
    ("p.ts" : String) = "p.ts" ∧ ("f" : String) = "f" ∧
      EntityKind.function = EntityKind.function ∧ (1 : Nat) = 1 ∧ (2 : Nat) = 2 ∧
      ("x" : String) = "x" :=
  stableInput_injective "p.ts" "f" "p.ts" "f" .function .function 1 2 1 2 "x" "x"
    (by decide) (by decide) (by decide) (by decide) rfl

/-- C2 (counterexample): two entities whose tuples differ — file `a:b` with
name `c` versus file `a` with name `b:c`, same kind, span and raw source —
have byte-identical hash inputs, so the claim's "any change to the tuple
yields a different id" fails when fields contain the `:` separator. -/
theorem stableInput_collision :
    stableInput "a:b" "c" .function 1 1 "x" = stableInput "a" "b:c" .function 1 1 "x" ∧
      ("a:b" : String) ≠ "a" := by
  exact ⟨rfl, by decide⟩

/-- C3 (amended): `createExplanationCacheKey` joins the three fields with
`:` (it computes no digest), and distinct `(contentDigest, model,
promptVersion)` triples produce distinct cache keys provided the entity hash
and the model identifier contain no `:`; without that proviso the encoding
is ambiguous (see the counterexample). -/
theorem createExplanationCacheKey_injective (eh m p eh' m' p' : String)
    (he : ':' ∉ eh.data) (hm : ':' ∉ m.data) (he' : ':' ∉ eh'.data) (hm' : ':' ∉ m'.data)
    (h : createExplanationCacheKey eh m p = createExplanationCacheKey eh' m' p') :
    eh = eh' ∧ m = m' ∧ p = p' := by
  have hd := congrArg String.data h
  simp only [createExplanationCacheKey, String.data_append, colon_data, List.append_assoc,
    List.singleton_append] at hd
  obtain ⟨h1, hd⟩ := colon_split_inj _ _ _ _ he he' hd
  obtain ⟨h2, h3⟩ := colon_split_inj _ _ _ _ hm hm' hd
  exact ⟨String.ext h1, String.ext h2, String.ext h3⟩

/-- Witness for `createExplanationCacheKey_injective` at a concrete input. -/
theorem createExplanationCacheKey_injective_witness :
    ("h1" : String) = "h1" ∧ ("gpt-4o-mini" : String) = "gpt-4o-mini" ∧
      ("v1" : String) = "v1" :=
  createExplanationCacheKey_injective "h1" "gpt-4o-mini" "v1" "h1" "gpt-4o-mini" "v1"
    (by decide) (by decide) (by decide) (by decide) rfl

/-- C3 (counterexample): the triples `("x", "y:z", "w")` and
`("x:y", "z", "w")` are distinct but produce the same cache key `x:y:z:w`,
so distinct `(contentDigest, model, promptVersion)` triples do not always
produce distinct cache keys. -/
theorem createExplanationCacheKey_collision :
    createExplanationCacheKey "x" "y:z" "w" = createExplanationCacheKey "x:y" "z" "w" ∧
      ("y:z" : String) ≠ "z" := by
  exact ⟨rfl, by decide⟩

/-! ## Association-list lookup lemmas -/

theorem jsGet_mem {m : List (String × String)} {k v : String} (h : jsGet m k = some v) :
    (k, v) ∈ m := by
  unfold jsGet at h
  cases hf : m.find? (fun kv => kv.1 == k) with
  | none => rw [hf] at h; cases h
  | some kv =>
    rw [hf] at h
    have hmem := List.mem_of_find?_eq_some hf
    have hkey := List.find?_some hf
    have : kv = (k, v) := by
      cases kv
      simp at h hkey
      simp_all
    rwa [this] at hmem

theorem jsGet_eq_none_iff {m : List (String × String)} {k : String} :
    jsGet m k = none ↔ k ∉ m.map Prod.fst := by
  unfold jsGet
  rw [Option.map_eq_none', List.find?_eq_none]
  constructor
  · intro h hk
    obtain ⟨kv, hkv, hfst⟩ := List.mem_map.mp hk
    exact h kv hkv (by simp [hfst])
  · intro h kv hkv hbeq
    exact h (List.mem_map.mpr ⟨kv, hkv, by simpa using hbeq⟩)

theorem jsGet_ne_none_iff {m : List (String × String)} {k : String} :
    jsGet m k ≠ none ↔ k ∈ m.map Prod.fst := by
  rw [Ne, jsGet_eq_none_iff, not_not]

/-! ## C1: the invalidation decider -/

/-- C1: `shouldExplainEntity` returns `true` exactly when the force flag is
set, or no previous snapshot exists, or the previous snapshot records no
hash for the entity's file, or the recorded file hash differs from the
current one, or the recorded content digest for the entity's id differs from
the entity's current content hash.  The hypothesis `hwf` states that the
snapshot's recorded file hashes are actual digests (nonempty strings, as
SHA-256 hex always is); the source tests `!prevFileHash`, which conflates a
missing hash with a recorded empty string. -/
theorem shouldExplainEntity_correct (entity : Entity) (fileHashes : List (String × String))
    (previousCache : Option CacheSnapshot) (force : Bool)
    (hwf : ∀ prev, previousCache = some prev → ∀ kv ∈ prev.fileHashes, kv.2 ≠ "") :
    shouldExplainEntity entity fileHashes previousCache force = true ↔
      (force = true ∨ previousCache = none ∨
        ∃ prev, previousCache = some prev ∧
          (jsGet prev.fileHashes entity.filePath = none ∨
           jsGet prev.fileHashes entity.filePath ≠ jsGet fileHashes entity.filePath ∨
           jsGet prev.entityHashes entity.id ≠ some entity.contentHash)) := by
  cases force with
  | true => simp [shouldExplainEntity]
  | false =>
    cases previousCache with
    | none => simp [shouldExplainEntity]
    | some prev =>
      have hne : jsGet prev.fileHashes entity.filePath ≠ some "" := fun hcontra =>
        hwf prev rfl _ (jsGet_mem hcontra) rfl
      rcases hg : jsGet prev.fileHashes entity.filePath with _ | v
      · simp [shouldExplainEntity, hg, jsFalsyStr]
      · have hv : v ≠ "" := fun hveq => hne (by rw [hg, hveq])
        have hfalsy : jsFalsyStr (some v) = false := by simp [jsFalsyStr, hv]
        by_cases heq : (some v : Option String) = jsGet fileHashes entity.filePath
        · have heq' : jsGet fileHashes entity.filePath = some v := heq.symm
          simp [shouldExplainEntity, hg, hfalsy, heq', hv]
        · simp [shouldExplainEntity, hg, hfalsy, heq]

/-- Witness for `shouldExplainEntity_correct`: with no previous snapshot the
decider recomputes. -/
theorem shouldExplainEntity_correct_witness :
    shouldExplainEntity ⟨"id0", "a.ts", "f", .function, true, ⟨1, 2⟩, none, "h0", "s"⟩ []
      none false = true :=
  (shouldExplainEntity_correct _ [] none false (fun prev h => by cases h)).mpr
    (Or.inr (Or.inl rfl))

/-! ## C7: reading the cache never fails -/

/-- C7: `readCache` is total — it returns `none` for a missing cache file
and `none` for any file content the JSON parse oracle rejects; no input
raises an error (the embedding is a total function, mirroring the source's
`try/catch` that converts every read/parse failure to `null`). -/
theorem readCache_total (parse : String → Except String CacheSnapshot) :
    readCache none parse = none ∧
      (∀ raw msg, parse raw = .error msg → readCache (some raw) parse = none) := by
  refine ⟨rfl, fun raw msg h => ?_⟩
  simp [readCache, h]

/-- Witness for `readCache_total` with a concrete always-failing parse. -/
theorem readCache_total_witness :
    readCache none (fun _ => .error "corrupt") = none ∧
      readCache (some "not json") (fun _ => .error "corrupt") = none :=
  ⟨(readCache_total (fun _ => .error "corrupt")).1,
   (readCache_total (fun _ => .error "corrupt")).2 "not json" "corrupt" rfl⟩

/-! ## `jsDedup` lemmas -/

theorem jsDedupAux_of_nodup :
    ∀ (l seen : List String), l.Nodup → (∀ x ∈ l, x ∉ seen) → jsDedupAux l seen = l := by
  intro l
  induction l with
  | nil => intro seen _ _; rfl
  | cons x xs ih =>
    intro seen hnd hdis
    have hx : ¬ seen.contains x = true := by
      rw [List.elem_iff]
      exact hdis x (List.mem_cons_self x xs)
    rw [jsDedupAux, if_neg hx, ih (x :: seen) (List.Nodup.of_cons hnd)]
    intro y hy hmem
    rcases List.mem_cons.mp hmem with h | h
    · exact (List.Nodup.not_mem hnd) (h ▸ hy)
    · exact hdis y (List.mem_cons_of_mem x hy) h

theorem jsDedup_of_nodup (l : List String) (h : l.Nodup) : jsDedup l = l :=
  jsDedupAux_of_nodup l [] h (by simp)

theorem jsDedupAux_length_le : ∀ (l seen : List String), (jsDedupAux l seen).length ≤ l.length := by
  intro l
  induction l with
  | nil => intro seen; simp [jsDedupAux]
  | cons x xs ih =>
    intro seen
    rw [jsDedupAux]
    split
    · exact Nat.le_succ_of_le (ih seen)
    · simpa using ih (x :: seen)

theorem mem_jsDedupAux (a : String) :
    ∀ (l seen : List String), a ∈ jsDedupAux l seen ↔ a ∈ l ∧ a ∉ seen := by
  intro l
  induction l with
  | nil => intro seen; simp [jsDedupAux]
  | cons x xs ih =>
    intro seen
    rw [jsDedupAux]
    by_cases hx : seen.contains x = true
    · rw [if_pos hx, ih seen]
      rw [List.elem_iff] at hx
      constructor
      · exact fun h => ⟨List.mem_cons_of_mem x h.1, h.2⟩
      · rintro ⟨h1, h2⟩
        rcases List.mem_cons.mp h1 with h | h
        · exact absurd (h ▸ hx) h2
        · exact ⟨h, h2⟩
    · rw [if_neg hx, List.mem_cons, ih (x :: seen)]
      rw [List.elem_iff] at hx
      by_cases hax : a = x
      · subst hax
        simp [hx]
      · simp [hax]

theorem mem_jsDedup {a : String} {l : List String} : a ∈ jsDedup l ↔ a ∈ l := by
  rw [jsDedup, mem_jsDedupAux]
  simp

/-! ## C6: the dependency graph builder -/

/-- C6: `buildGraph` keeps everything untruncated when the file list fits in
the budget; over budget (for a duplicate-free file list, as `discoverFiles`
produces) it keeps exactly the first `maxNodes` files in caller order,
filters the edges to those whose both endpoints survive, sets `truncated`
and reports `omittedNodeCount` as the exact difference; whenever the result
is truncated, `omittedNodeCount + len(nodes) = len(files)`; and the function
is deterministic. -/
theorem buildGraph_correct (files : List String) (edges : List DependencyEdge) (maxNodes : Nat) :
    (files.length ≤ maxNodes →
      buildGraph files edges maxNodes = ⟨files, edges, false, 0⟩) ∧
    (maxNodes < files.length → files.Nodup →
      buildGraph files edges maxNodes =
        ⟨files.take maxNodes,
         edges.filter (fun edge =>
           (files.take maxNodes).contains edge.from &&
             (files.take maxNodes).contains edge.to),
         true, files.length - maxNodes⟩) ∧
    ((buildGraph files edges maxNodes).truncated = true →
      (buildGraph files edges maxNodes).omittedNodeCount +
        (buildGraph files edges maxNodes).nodes.length = files.length) ∧
    buildGraph files edges maxNodes = buildGraph files edges maxNodes := by
  refine ⟨fun h => by simp [buildGraph, h], fun h hnd => ?_, ?_, rfl⟩
  · have hkept : jsDedup (files.take maxNodes) = files.take maxNodes :=
      jsDedup_of_nodup _ ((files.take_sublist maxNodes).nodup hnd)
    have hlen : (files.take maxNodes).length = maxNodes := by
      rw [List.length_take]
      omega
    simp only [buildGraph, if_neg (Nat.not_le.mpr h), hkept, hlen]
  · by_cases h : files.length ≤ maxNodes
    · simp [buildGraph, h]
    · have h1 := jsDedupAux_length_le (files.take maxNodes) []
      have h2 : (files.take maxNodes).length ≤ maxNodes := by
        rw [List.length_take]; omega
      simp only [buildGraph, if_neg h, jsDedup] at *
      intro _
      omega

/-- Witness for `buildGraph_correct` at a concrete over-budget input. -/
theorem buildGraph_correct_witness :
    buildGraph ["a", "b", "c"] [⟨"a", "b"⟩, ⟨"a", "c"⟩] 2 =
      ⟨["a", "b"], [⟨"a", "b"⟩], true, 1⟩ := by
  rw [(buildGraph_correct ["a", "b", "c"] [⟨"a", "b"⟩, ⟨"a", "c"⟩] 2).2.1
    (by decide) (by decide)]
  decide

/-! ## C5: the changelog builder -/

theorem jsGet_mem_keys {m : List (String × String)} {k v : String} (h : jsGet m k = some v) :
    k ∈ m.map Prod.fst :=
  List.mem_map.mpr ⟨(k, v), jsGet_mem h, rfl⟩

theorem jsFalsy_jsGet_eq_false_iff {m : List (String × String)} {k : String}
    (hwf : ∀ kv ∈ m, kv.2 ≠ "") :
    jsFalsyStr (jsGet m k) = false ↔ k ∈ m.map Prod.fst := by
  cases hg : jsGet m k with
  | none =>
    have := jsGet_eq_none_iff.mp hg
    simp [jsFalsyStr, this]
  | some v =>
    have hv : v ≠ "" := hwf _ (jsGet_mem hg)
    simp only [jsFalsyStr, beq_eq_false_iff_ne, ne_eq, hv, not_false_eq_true, true_iff]
    exact jsGet_mem_keys hg

/-- C5: `buildChangelog` reports, when the previous snapshot is absent or
has no `lastSuccessfulSnapshot`, every current entity id as added (length
`N` for `N` current entities), nothing removed or changed, and an
initial-snapshot summary; otherwise added = ids present now but absent from
the previous successful snapshot, removed = ids present there but absent
now, and changed = ids present in both whose recorded digests differ.  The
hypothesis `hwf` states that the previous snapshot's recorded digests are
nonempty (as SHA-256 hex always is); the source guards the changed-filter
with JS truthiness of the recorded digest. -/
theorem buildChangelog_correct (cur : List (String × String))
    (previousCache : Option CacheSnapshot)
    (hwf : ∀ snap prev, previousCache = some snap → snap.lastSuccessfulSnapshot = some prev →
      ∀ kv ∈ prev.entityHashes, kv.2 ≠ "") :
    (previousCache.bind (fun c => c.lastSuccessfulSnapshot) = none →
      (buildChangelog cur previousCache).addedEntities = cur.map Prod.fst ∧
      (buildChangelog cur previousCache).removedEntities = [] ∧
      (buildChangelog cur previousCache).changedEntities = [] ∧
      (buildChangelog cur previousCache).addedEntities.length = cur.length ∧
      (buildChangelog cur previousCache).summaryText =
        "Initial snapshot: " ++ toString cur.length ++ " entities analyzed.") ∧
    (∀ snap prev, previousCache = some snap → snap.lastSuccessfulSnapshot = some prev →
      (∀ id, id ∈ (buildChangelog cur previousCache).addedEntities ↔
        id ∈ cur.map Prod.fst ∧ id ∉ prev.entityHashes.map Prod.fst) ∧
      (∀ id, id ∈ (buildChangelog cur previousCache).removedEntities ↔
        id ∈ prev.entityHashes.map Prod.fst ∧ id ∉ cur.map Prod.fst) ∧
      (∀ id, id ∈ (buildChangelog cur previousCache).changedEntities ↔
        id ∈ cur.map Prod.fst ∧ id ∈ prev.entityHashes.map Prod.fst ∧
          jsGet prev.entityHashes id ≠ jsGet cur id)) := by
  constructor
  · intro hnone
    simp [buildChangelog, hnone]
  · intro snap prev hsnap hlast
    have hbind : previousCache.bind (fun c => c.lastSuccessfulSnapshot) = some prev := by
      rw [hsnap]
      simpa using hlast
    have hwf' : ∀ kv ∈ prev.entityHashes, kv.2 ≠ "" := hwf snap prev hsnap hlast
    refine ⟨fun id => ?_, fun id => ?_, fun id => ?_⟩
    · simp [buildChangelog, hbind, List.mem_filter, mem_jsDedup, List.elem_iff]
    · simp [buildChangelog, hbind, List.mem_filter, mem_jsDedup, List.elem_iff]
    · simp only [buildChangelog, hbind, List.mem_filter, mem_jsDedup, Bool.and_eq_true,
        Bool.not_eq_true', decide_eq_true_eq]
      constructor
      · rintro ⟨h1, h2, h3⟩
        exact ⟨h1, (jsFalsy_jsGet_eq_false_iff hwf').mp h2, h3⟩
      · rintro ⟨h1, h2, h3⟩
        exact ⟨h1, (jsFalsy_jsGet_eq_false_iff hwf').mpr h2, h3⟩

/-- Witness for `buildChangelog_correct`: a concrete diff with one added,
one removed and one changed id. -/
theorem buildChangelog_correct_witness :
    "b" ∈ (buildChangelog [("a", "1"), ("b", "2")]
      (some ⟨"sh", "t", [], [], [], some ⟨[("b", "9"), ("c", "3")], ["b", "c"]⟩⟩)).changedEntities :=
  (((buildChangelog_correct [("a", "1"), ("b", "2")]
      (some ⟨"sh", "t", [], [], [], some ⟨[("b", "9"), ("c", "3")], ["b", "c"]⟩⟩)
      (fun snap prev h1 h2 => by cases h1; cases h2; decide)).2
    ⟨"sh", "t", [], [], [], some ⟨[("b", "9"), ("c", "3")], ["b", "c"]⟩⟩
    ⟨[("b", "9"), ("c", "3")], ["b", "c"]⟩ rfl rfl).2.2 "b").mpr (by decide)

/-! ## C10: the main loop serves the cache only on decider-no plus hit -/

theorem jsGetEntry_append_single {m : List (String × CacheEntry)} {k : String} {v : CacheEntry}
    (h : m.find? (fun kv => kv.1 == k) = none) :
    jsGetEntry (m ++ [(k, v)]) k = some v := by
  induction m with
  | nil => simp [jsGetEntry]
  | cons kv tl ih =>
    rw [List.find?_cons] at h
    unfold jsGetEntry
    rw [List.cons_append, List.find?_cons]
    cases hkv : (kv.1 == k) with
    | true => rw [hkv] at h; cases h
    | false =>
      rw [hkv] at h
      exact ih h

theorem jsGetEntry_map_overwrite {m : List (String × CacheEntry)} {k : String} {v : CacheEntry}
    (h : (m.find? (fun kv => kv.1 == k)).isSome) :
    jsGetEntry (m.map (fun kv => if kv.1 == k then (kv.1, v) else kv)) k = some v := by
  induction m with
  | nil => simp at h
  | cons kv tl ih =>
    rw [List.find?_cons] at h
    unfold jsGetEntry
    rw [List.map_cons, List.find?_cons]
    cases hkv : (kv.1 == k) with
    | true => simp [hkv]
    | false =>
      simp only [hkv, Bool.false_eq_true, if_false]
      rw [hkv] at h
      exact ih h

theorem jsGetEntry_jsSetEntry_same (m : List (String × CacheEntry)) (k : String)
    (v : CacheEntry) : jsGetEntry (jsSetEntry m k v) k = some v := by
  unfold jsSetEntry
  cases hf : (m.find? (fun kv => kv.1 == k)).isSome with
  | true => rw [if_pos rfl]; exact jsGetEntry_map_overwrite (by rw [hf])
  | false =>
    have hnone : m.find? (fun kv => kv.1 == k) = none := by
      cases hm : m.find? (fun kv => kv.1 == k) with
      | none => rfl
      | some x => rw [hm] at hf; cases hf
    rw [if_neg (by simp [hnone])]
    exact jsGetEntry_append_single hnone

/-- C10: in the main pipeline loop, a previously cached explanation is
served (status `cached`) exactly when `shouldExplainEntity` returns false
AND the explanation cache merged forward from the previous snapshot has an
entry under the key built from `(entity.contentHash, model,
PROMPT_VERSION)`; when the decider returns false but no such entry exists,
the provider is invoked anyway — the explanation reflects the provider
outcome and the result is stored under the new key. -/
theorem processEntity_cached_iff (entity : Entity) (fileHashes : List (String × String))
    (previousCache : Option CacheSnapshot) (force : Bool) (model : String)
    (llmResult : Except String String) :
    ((processEntity entity fileHashes previousCache force
          (initialExplanationCache previousCache) model llmResult).1.status =
        ExplanationStatus.cached ↔
      (shouldExplainEntity entity fileHashes previousCache force = false ∧
        jsGetEntry (initialExplanationCache previousCache)
          (createExplanationCacheKey entity.contentHash model PROMPT_VERSION) ≠ none)) ∧
    (shouldExplainEntity entity fileHashes previousCache force = false →
      jsGetEntry (initialExplanationCache previousCache)
          (createExplanationCacheKey entity.contentHash model PROMPT_VERSION) = none →
      (∀ text, llmResult = .ok text →
        (processEntity entity fileHashes previousCache force
            (initialExplanationCache previousCache) model llmResult).1 =
          ⟨text, .ok, none⟩ ∧
        jsGetEntry (processEntity entity fileHashes previousCache force
            (initialExplanationCache previousCache) model llmResult).2
          (createExplanationCacheKey entity.contentHash model PROMPT_VERSION) =
          some ⟨text, .ok, none⟩) ∧
      (∀ msg, llmResult = .error msg →
        (processEntity entity fileHashes previousCache force
            (initialExplanationCache previousCache) model llmResult).1 =
          ⟨"Explanation unavailable due to provider error.", .failed, some msg⟩ ∧
        jsGetEntry (processEntity entity fileHashes previousCache force
            (initialExplanationCache previousCache) model llmResult).2
          (createExplanationCacheKey entity.contentHash model PROMPT_VERSION) =
          some ⟨"Explanation unavailable due to provider error.", .failed, some msg⟩)) := by
  cases hS : shouldExplainEntity entity fileHashes previousCache force with
  | true =>
    cases llmResult with
    | ok text => simp [processEntity, hS]
    | error msg => simp [processEntity, hS]
  | false =>
    cases hG : jsGetEntry (initialExplanationCache previousCache)
        (createExplanationCacheKey entity.contentHash model PROMPT_VERSION) with
    | some entry => simp [processEntity, hS, hG]
    | none =>
      cases llmResult with
      | ok text =>
        simp [processEntity, hS, hG, jsGetEntry_jsSetEntry_same]
      | error msg =>
        simp [processEntity, hS, hG, jsGetEntry_jsSetEntry_same]

/-- Witness for `processEntity_cached_iff`: with unchanged hashes and a
cache hit under the current key, the entity is served with status `cached`;
with unchanged hashes but no entry under the key (e.g. after a model
change), the provider outcome is used and stored. -/
theorem processEntity_cached_iff_witness :
    (processEntity ⟨"id0", "a.ts", "f", .function, true, ⟨1, 2⟩, none, "h0", "s"⟩
        [("a.ts", "fh")]
        (some ⟨"sh", "t", [("a.ts", "fh")], [("id0", "h0")],
          [(createExplanationCacheKey "h0" "m" "v1", ⟨"cached text", .ok, none⟩)], none⟩)
        false
        (initialExplanationCache (some ⟨"sh", "t", [("a.ts", "fh")], [("id0", "h0")],
          [(createExplanationCacheKey "h0" "m" "v1", ⟨"cached text", .ok, none⟩)], none⟩))
        "m" (.ok "fresh")).1.status = ExplanationStatus.cached ∧
    (processEntity ⟨"id0", "a.ts", "f", .function, true, ⟨1, 2⟩, none, "h0", "s"⟩
        [("a.ts", "fh")]
        (some ⟨"sh", "t", [("a.ts", "fh")], [("id0", "h0")], [], none⟩)
        false
        (initialExplanationCache
          (some ⟨"sh", "t", [("a.ts", "fh")], [("id0", "h0")], [], none⟩))
        "m2" (.ok "fresh")).1 = ⟨"fresh", .ok, none⟩ :=
  ⟨((processEntity_cached_iff ⟨"id0", "a.ts", "f", .function, true, ⟨1, 2⟩, none, "h0", "s"⟩
      [("a.ts", "fh")]
      (some ⟨"sh", "t", [("a.ts", "fh")], [("id0", "h0")],
        [(createExplanationCacheKey "h0" "m" "v1", ⟨"cached text", .ok, none⟩)], none⟩)
      false "m" (.ok "fresh")).1).mpr ⟨by decide, by decide⟩,
   ((((processEntity_cached_iff ⟨"id0", "a.ts", "f", .function, true, ⟨1, 2⟩, none, "h0", "s"⟩
      [("a.ts", "fh")]
      (some ⟨"sh", "t", [("a.ts", "fh")], [("id0", "h0")], [], none⟩)
      false "m2" (.ok "fresh")).2 (by decide) (by decide)).1 "fresh" rfl)).1⟩

/-! ## C9 / C4: glob semantics -/

/-- Declarative matching relation written from the spec's description of the
glob tokens: a literal matches itself, `*` matches any run of non-separator
characters, `**/` matches zero (`gsEmpty`) or more (`gsSeg`) whole path
segments — a run of non-separator characters followed by `/` — and `**`
matches any remainder including separators. -/
inductive SpecMatch : List GlobPart → List Char → Prop where
  | nil : SpecMatch [] []
  | lit {c : Char} {ps : List GlobPart} {s : List Char} :
      SpecMatch ps s → SpecMatch (.lit c :: ps) (c :: s)
  | star {ps : List GlobPart} {s : List Char} (a : List Char) (ha : '/' ∉ a) :
      SpecMatch ps s → SpecMatch (.star :: ps) (a ++ s)
  | gsEmpty {ps : List GlobPart} {s : List Char} :
      SpecMatch ps s → SpecMatch (.globstarSlash :: ps) s
  | gsSeg {ps : List GlobPart} {s : List Char} (seg : List Char) (hseg : '/' ∉ seg) :
      SpecMatch (.globstarSlash :: ps) s → SpecMatch (.globstarSlash :: ps) (seg ++ '/' :: s)
  | all {ps : List GlobPart} {s : List Char} (a : List Char) :
      SpecMatch ps s → SpecMatch (.globstarAll :: ps) (a ++ s)

theorem mem_starSuffixes_self (s : List Char) : s ∈ starSuffixes s := by
  cases s <;> simp [starSuffixes]

theorem mem_starSuffixes_append {a s : List Char} (h : '/' ∉ a) :
    s ∈ starSuffixes (a ++ s) := by
  induction a with
  | nil => simpa using mem_starSuffixes_self s
  | cons c a ih =>
    have hc : ¬ c = '/' := fun hc => h (hc ▸ List.mem_cons_self c a)
    rw [List.cons_append, starSuffixes, if_neg hc]
    exact List.mem_cons_of_mem _ (ih (fun hm => h (List.mem_cons_of_mem c hm)))

theorem starSuffixes_sound : ∀ s t, t ∈ starSuffixes s → ∃ a, s = a ++ t ∧ '/' ∉ a := by
  intro s
  induction s with
  | nil =>
    intro t ht
    simp [starSuffixes] at ht
    exact ⟨[], by simp [ht], by simp⟩
  | cons c cs ih =>
    intro t ht
    rw [starSuffixes] at ht
    rcases List.mem_cons.mp ht with h | h
    · exact ⟨[], by simp [h], by simp⟩
    · by_cases hc : c = '/'
      · rw [if_pos hc] at h; cases h
      · rw [if_neg hc] at h
        obtain ⟨a, ha1, ha2⟩ := ih t h
        refine ⟨c :: a, by simp [ha1], ?_⟩
        intro hm
        rcases List.mem_cons.mp hm with h' | h'
        · exact hc h'.symm
        · exact ha2 h'

theorem mem_slashSuffixes_append_cons : ∀ (seg s : List Char),
    s ∈ slashSuffixes (seg ++ '/' :: s) := by
  intro seg
  induction seg with
  | nil => intro s; simp [slashSuffixes]
  | cons c seg ih =>
    intro s
    rw [List.cons_append, slashSuffixes]
    exact List.mem_append_right _ (ih s)

theorem mem_slashSuffixes_mono : ∀ (a b t : List Char),
    t ∈ slashSuffixes b → t ∈ slashSuffixes (a ++ b) := by
  intro a
  induction a with
  | nil => intro b t h; simpa using h
  | cons c a ih =>
    intro b t h
    rw [List.cons_append, slashSuffixes]
    exact List.mem_append_right _ (ih b t h)

theorem slashSuffixes_sound : ∀ s t, t ∈ slashSuffixes s → ∃ a, s = a ++ '/' :: t := by
  intro s
  induction s with
  | nil => intro t ht; cases ht
  | cons c cs ih =>
    intro t ht
    rw [slashSuffixes] at ht
    rcases List.mem_append.mp ht with h | h
    · by_cases hc : c = '/'
      · rw [if_pos hc] at h
        rcases List.mem_singleton.mp h with rfl
        exact ⟨[], by simp [hc]⟩
      · rw [if_neg hc] at h; cases h
    · obtain ⟨a, ha⟩ := ih t h
      exact ⟨c :: a, by simp [ha]⟩

theorem specMatch_gs_extend (ps : List GlobPart) :
    ∀ (pre t : List Char), SpecMatch (.globstarSlash :: ps) t →
      ∀ seg, '/' ∉ seg → SpecMatch (.globstarSlash :: ps) (seg ++ pre ++ '/' :: t) := by
  intro pre
  induction pre with
  | nil =>
    intro t h seg hseg
    simpa using SpecMatch.gsSeg seg hseg h
  | cons c pre ih =>
    intro t h seg hseg
    by_cases hc : c = '/'
    · subst hc
      have h1 := ih t h [] (by simp)
      have h2 := SpecMatch.gsSeg seg hseg (by simpa using h1)
      simpa using h2
    · have hseg' : '/' ∉ seg ++ [c] := by
        intro hm
        rcases List.mem_append.mp hm with h' | h'
        · exact hseg h'
        · exact hc (List.mem_singleton.mp h').symm
      have := ih t h (seg ++ [c]) hseg'
      simpa [List.append_assoc] using this

theorem specMatch_gmatch {ps : List GlobPart} {s : List Char} (h : SpecMatch ps s) :
    gmatch ps s = true := by
  induction h with
  | nil => simp [gmatch]
  | lit h ih => simp [gmatch, ih]
  | star a ha h ih =>
    simp only [gmatch, List.any_eq_true]
    exact ⟨_, mem_starSuffixes_append ha, ih⟩
  | gsEmpty h ih => simp [gmatch, ih]
  | gsSeg seg hseg h ih =>
    simp only [gmatch, Bool.or_eq_true, List.any_eq_true] at ih ⊢
    rcases ih with h1 | ⟨t, ht, h2⟩
    · exact Or.inr ⟨_, mem_slashSuffixes_append_cons seg _, h1⟩
    · refine Or.inr ⟨t, ?_, h2⟩
      have := mem_slashSuffixes_mono (seg ++ ['/']) _ t ht
      simpa [List.append_assoc] using this
  | all a h ih =>
    simp only [gmatch, List.any_eq_true]
    exact ⟨_, (List.mem_tails _ _).mpr (List.suffix_append a _), ih⟩

theorem gmatch_specMatch : ∀ (ps : List GlobPart) (s : List Char),
    gmatch ps s = true → SpecMatch ps s := by
  intro ps
  induction ps with
  | nil =>
    intro s h
    simp only [gmatch, List.isEmpty_iff] at h
    exact h ▸ SpecMatch.nil
  | cons p ps ih =>
    cases p with
    | lit c =>
      intro s h
      cases s with
      | nil => simp [gmatch] at h
      | cons d ds =>
        simp only [gmatch, Bool.and_eq_true, beq_iff_eq] at h
        obtain ⟨rfl, h2⟩ := h
        exact SpecMatch.lit (ih ds h2)
    | star =>
      intro s h
      simp only [gmatch, List.any_eq_true] at h
      obtain ⟨t, ht, h2⟩ := h
      obtain ⟨a, rfl, ha⟩ := starSuffixes_sound s t ht
      exact SpecMatch.star a ha (ih t h2)
    | globstarSlash =>
      intro s h
      simp only [gmatch, Bool.or_eq_true, List.any_eq_true] at h
      rcases h with h1 | ⟨t, ht, h2⟩
      · exact SpecMatch.gsEmpty (ih s h1)
      · obtain ⟨a, rfl⟩ := slashSuffixes_sound s t ht
        have := specMatch_gs_extend ps a t (SpecMatch.gsEmpty (ih t h2)) [] (by simp)
        simpa using this
    | globstarAll =>
      intro s h
      simp only [gmatch, List.any_eq_true] at h
      obtain ⟨t, ht, h2⟩ := h
      obtain ⟨a, rfl⟩ := (List.mem_tails t s).mp ht
      exact SpecMatch.all a (ih t h2)

theorem takeWhile_dropWhile_not_mem {x : Char} :
    ∀ (content rest : List Char), x ∉ content →
      (content ++ x :: rest).takeWhile (fun d => decide (d ≠ x)) = content ∧
      (content ++ x :: rest).dropWhile (fun d => decide (d ≠ x)) = x :: rest := by
  intro content
  induction content with
  | nil => intro rest _; simp [List.takeWhile, List.dropWhile]
  | cons c cs ih =>
    intro rest h
    have hc : c ≠ x := fun hc => h (hc ▸ List.mem_cons_self c cs)
    have htail := ih rest (fun hm => h (List.mem_cons_of_mem c hm))
    rw [List.cons_append]
    constructor
    · rw [List.takeWhile_cons, if_pos (by simp [hc]), htail.1]
    · rw [List.dropWhile_cons, if_pos (by simp [hc])]
      exact htail.2

theorem braceSplit_cons (c : Char) (rest : List Char) :
    braceSplit (c :: rest) =
      if c = braceOpen then
        match rest.dropWhile (fun d => decide (d ≠ braceClose)),
            rest.takeWhile (fun d => decide (d ≠ braceClose)) with
        | _ :: suf, _ :: _ =>
          some ([], rest.takeWhile (fun d => decide (d ≠ braceClose)), suf)
        | _, _ => (braceSplit rest).map (fun r => (c :: r.1, r.2.1, r.2.2))
      else (braceSplit rest).map (fun r => (c :: r.1, r.2.1, r.2.2)) := rfl

theorem braceSplit_of_split :
    ∀ (pre content suf : List Char), braceOpen ∉ pre → braceClose ∉ content → content ≠ [] →
      braceSplit (pre ++ braceOpen :: content ++ braceClose :: suf) =
        some (pre, content, suf) := by
  intro pre
  induction pre with
  | nil =>
    intro content suf _ hcontent hne
    obtain ⟨c, cs, rfl⟩ := List.exists_cons_of_ne_nil hne
    have h := takeWhile_dropWhile_not_mem (c :: cs) suf hcontent
    show braceSplit (braceOpen :: ((c :: cs) ++ braceClose :: suf)) = some ([], c :: cs, suf)
    rw [braceSplit_cons, if_pos rfl, h.1, h.2]
  | cons c pre ih =>
    intro content suf hpre hcontent hne
    have hc : ¬ c = braceOpen := fun hc => hpre (hc ▸ List.mem_cons_self c pre)
    show braceSplit (c :: ((pre ++ braceOpen :: content) ++ braceClose :: suf)) =
      some (c :: pre, content, suf)
    rw [braceSplit_cons, if_neg hc,
      ih content suf (fun hm => hpre (List.mem_cons_of_mem c hm)) hcontent hne]
    rfl

theorem expandBraces_first_group (pre content suf : List Char)
    (hpre : braceOpen ∉ pre) (hcontent : braceClose ∉ content) (hne : content ≠ []) :
    expandBraces (pre ++ braceOpen :: content ++ braceClose :: suf) =
      (splitOnComma content).map (fun alt => pre ++ alt ++ suf) := by
  unfold expandBraces
  rw [braceSplit_of_split pre content suf hpre hcontent hne]

/-- C9 (amended): the compiled matchers implement the stated glob token
semantics — for every compiled token list, the executable matcher accepts a
path exactly when the declarative `SpecMatch` relation does (`*` a run of
non-separator characters, `**/` zero or more whole path segments including
none, `**` any remainder including separators, every other character
literal) — and brace expansion expands the FIRST brace group into one
pattern per comma-separated alternative before compilation; later brace
groups are left unexpanded (and are then compiled as literal characters),
which is where the original claim's "each brace group" fails (see the
counterexample). -/
theorem globSemantics_correct :
    (∀ (ps : List GlobPart) (s : List Char), gmatch ps s = true ↔ SpecMatch ps s) ∧
    (∀ (pre content suf : List Char), braceOpen ∉ pre → braceClose ∉ content →
      content ≠ [] →
      expandBraces (pre ++ braceOpen :: content ++ braceClose :: suf) =
        (splitOnComma content).map (fun alt => pre ++ alt ++ suf)) :=
  ⟨fun ps s => ⟨gmatch_specMatch ps s, specMatch_gmatch⟩, expandBraces_first_group⟩

/-- Witness for `globSemantics_correct`: `**/x` matches `x` at the root, and
a single brace group expands into one pattern per alternative. -/
theorem globSemantics_correct_witness :
    SpecMatch (globCompile ['*', '*', '/', 'x']) ['x'] ∧
    expandBraces (['a'] ++ braceOpen :: ['b', ',', 'c'] ++ braceClose :: ['d']) =
      (splitOnComma ['b', ',', 'c']).map (fun alt => ['a'] ++ alt ++ ['d']) :=
  ⟨(globSemantics_correct.1 _ _).mp (by decide),
   globSemantics_correct.2 ['a'] ['b', ',', 'c'] ['d'] (by decide) (by decide) (by decide)⟩

/-- C9 (counterexample): on the two-group pattern `\x7ba,b\x7d\x7bc,d\x7d`,
`expandBraces` expands only the first group — the second stays literal in
both produced patterns — and consequently the compiled pattern set rejects
the path `ac`, although per-group expansion would produce the pattern `ac`,
which matches it. -/
theorem expandBraces_counterexample :
    expandBraces
        (braceOpen :: 'a' :: ',' :: 'b' :: braceClose ::
          braceOpen :: 'c' :: ',' :: 'd' :: braceClose :: []) =
      [['a', braceOpen, 'c', ',', 'd', braceClose],
       ['b', braceOpen, 'c', ',', 'd', braceClose]] ∧
    (compilePatterns
        [braceOpen :: 'a' :: ',' :: 'b' :: braceClose ::
          braceOpen :: 'c' :: ',' :: 'd' :: braceClose :: []]).any
      (fun ps => gmatch ps ['a', 'c']) = false ∧
    gmatch (globCompile ['a', 'c']) ['a', 'c'] = true :=
  ⟨by decide, by decide, by decide⟩

/-- C4: `discoverFiles` selects a file iff its normalized relative path is
matched by at least one compiled include pattern and by zero compiled
exclude patterns (excludes win regardless of order), and on the spec's
concrete example — include `**/*.ts`, exclude `**/*.test.ts` over
`src/a.ts`, `src/a.test.ts`, `src/b/c.ts` — it selects exactly `src/a.ts`
and `src/b/c.ts`. -/
theorem discoverFiles_selects
    (tree includePatterns excludePatterns : List (List Char)) (f : List Char) :
    (f ∈ discoverFiles tree includePatterns excludePatterns ↔
      f ∈ tree ∧
        (compilePatterns includePatterns).any (fun ps => gmatch ps f) = true ∧
        (compilePatterns excludePatterns).any (fun ps => gmatch ps f) = false) ∧
    discoverFiles ["src/a.ts".data, "src/a.test.ts".data, "src/b/c.ts".data]
        ["**/*.ts".data] ["**/*.test.ts".data] =
      ["src/a.ts".data, "src/b/c.ts".data] := by
  constructor
  · simp only [discoverFiles, List.mem_filter, and_assoc, List.any_eq_true,
      Bool.not_eq_true', List.any_eq_false]
  · decide

/-! ## C8: exported flags of method entities -/

theorem buildEntity_kind (hash : String → String) (fp : String) (node : Node) (name : String)
    (ex : Bool) : (buildEntity hash fp node name ex).kind = symbolKindFromNode node name := rfl

theorem buildEntity_exported (hash : String → String) (fp : String) (node : Node)
    (name : String) (ex : Bool) : (buildEntity hash fp node name ex).exported = ex := rfl

theorem symbolKindFromNode_method_iff (node : Node) (name : String) :
    symbolKindFromNode node name = .method ↔ node.nodeKind = .methodDecl := by
  cases h : node.nodeKind <;> simp only [symbolKindFromNode, h] <;> try simp
  all_goals (split <;> simp)

theorem buildEntity_kind_ne_method {node : Node} (hash : String → String) (fp name : String)
    (ex : Bool) (h : node.nodeKind ≠ .methodDecl) :
    (buildEntity hash fp node name ex).kind ≠ .method := by
  rw [buildEntity_kind]
  intro hk
  exact h ((symbolKindFromNode_method_iff node name).mp hk)

theorem filter_method_nil_of_kinds {l : List Entity}
    (h : ∀ e ∈ l, e.kind ≠ EntityKind.method) :
    l.filter (fun e => e.kind == EntityKind.method) = [] := by
  rw [List.filter_eq_nil_iff]
  intro e he
  simpa using h e he

theorem filter_method_extractClassEntities (hash : String → String) (filePath : String)
    (k : ClassDecl) :
    (((extractClassEntities hash filePath k).filter
        (fun e => e.kind == EntityKind.method)).map (fun e => e.exported)) =
      k.methods.map (fun m => m.isExported) := by
  unfold extractClassEntities
  rw [List.filter_cons_of_neg (by
    simpa using buildEntity_kind_ne_method hash filePath _ k.isExported (by simp [classNode]))]
  rw [List.filter_append]
  have hm : ((k.methods.map (fun m =>
      buildEntity hash filePath (methodNode m)
        ((k.className.getD "AnonymousClass") ++ "." ++ m.name) m.isExported)).filter
        (fun e => e.kind == EntityKind.method)) =
      k.methods.map (fun m =>
        buildEntity hash filePath (methodNode m)
          ((k.className.getD "AnonymousClass") ++ "." ++ m.name) m.isExported) := by
    apply List.filter_eq_self.mpr
    intro e he
    obtain ⟨m, _, rfl⟩ := List.mem_map.mp he
    simp [buildEntity_kind, symbolKindFromNode, methodNode]
  have hp : ((k.props.filterMap (fun p =>
      p.arrowInitializer.map (fun a =>
        buildEntity hash filePath (arrowNode a.1 a.2.1 a.2.2)
          ((k.className.getD "AnonymousClass") ++ "." ++ p.name) p.isExported))).filter
        (fun e => e.kind == EntityKind.method)) = [] := by
    apply filter_method_nil_of_kinds
    intro e he
    obtain ⟨p, _, hp⟩ := List.mem_filterMap.mp he
    obtain ⟨a, _, rfl⟩ := Option.map_eq_some'.mp hp
    exact buildEntity_kind_ne_method hash filePath _ p.isExported (by simp [arrowNode])
  rw [hm, hp, List.append_nil, List.map_map]
  rfl

/-- C8 (amended): every method entity carries the exported flag computed
from the method's own syntax (`method.isExported()`), not the enclosing
class declaration's flag: over the whole extraction, the exported flags of
the method-kind entities are exactly the methods' own `isExported` values,
in order. -/
theorem methodEntities_exported_own_syntax (hash : String → String) (filePath : String)
    (sf : SourceFileModel) :
    (((extractFunctionDeclarations hash filePath sf).filter
        (fun e => e.kind == EntityKind.method)).map (fun e => e.exported)) =
      sf.classes.flatMap (fun k => k.methods.map (fun m => m.isExported)) := by
  unfold extractFunctionDeclarations
  rw [List.filter_append, List.filter_append, List.filter_append, List.filter_append,
    List.filter_append]
  have hA : ((sf.functions.filterMap (fun fn =>
      match fn.name with
      | none => none
      | some n =>
        if n = "" then none
        else some (buildEntity hash filePath (fnNode fn) n fn.isExported))).filter
        (fun e => e.kind == EntityKind.method)) = [] := by
    apply filter_method_nil_of_kinds
    intro e he
    obtain ⟨fn, _, hfn⟩ := List.mem_filterMap.mp he
    rcases hname : fn.name with _ | n
    · simp only [hname] at hfn; cases hfn
    · simp only [hname] at hfn
      by_cases hn : n = ""
      · rw [if_pos hn] at hfn; cases hfn
      · rw [if_neg hn] at hfn
        obtain rfl := Option.some.inj hfn
        exact buildEntity_kind_ne_method hash filePath n fn.isExported (by simp [fnNode])
  have hC : ((sf.interfaces.map (fun i =>
      buildEntity hash filePath ⟨.interfaceDecl, i.text, i.loc, none, ""⟩ i.name
        i.isExported)).filter (fun e => e.kind == EntityKind.method)) = [] := by
    apply filter_method_nil_of_kinds
    intro e he
    obtain ⟨i, _, rfl⟩ := List.mem_map.mp he
    exact buildEntity_kind_ne_method hash filePath i.name i.isExported (by simp)
  have hD : ((sf.typeAliases.map (fun a =>
      buildEntity hash filePath ⟨.typeAliasDecl, a.text, a.loc, none, ""⟩ a.name
        a.isExported)).filter (fun e => e.kind == EntityKind.method)) = [] := by
    apply filter_method_nil_of_kinds
    intro e he
    obtain ⟨a, _, rfl⟩ := List.mem_map.mp he
    exact buildEntity_kind_ne_method hash filePath a.name a.isExported (by simp)
  have hE : ((sf.enums.map (fun e =>
      buildEntity hash filePath ⟨.enumDecl, e.text, e.loc, none, ""⟩ e.name
        e.isExported)).filter (fun e => e.kind == EntityKind.method)) = [] := by
    apply filter_method_nil_of_kinds
    intro e he
    obtain ⟨a, _, rfl⟩ := List.mem_map.mp he
    exact buildEntity_kind_ne_method hash filePath a.name a.isExported (by simp)
  have hF : ((sf.variableDeclarations.flatMap (fun decl =>
      extractVarEntities hash filePath decl)).filter
        (fun e => e.kind == EntityKind.method)) = [] := by
    apply filter_method_nil_of_kinds
    intro e he
    obtain ⟨decl, _, hd⟩ := List.mem_flatMap.mp he
    rcases hinit : decl.init with _ | init
    · rw [extractVarEntities, hinit] at hd; cases hd
    · cases init with
      | arrow text loc fnSignature =>
        rw [extractVarEntities, hinit] at hd
        rcases List.mem_singleton.mp hd with rfl
        exact buildEntity_kind_ne_method hash filePath decl.name decl.statementExported
          (by simp [arrowNode])
      | other =>
        rw [extractVarEntities, hinit] at hd
        rcases List.mem_singleton.mp hd with rfl
        exact buildEntity_kind_ne_method hash filePath decl.name decl.statementExported
          (by simp)
  rw [hA, hC, hD, hE, hF, List.filter_flatMap, List.nil_append, List.append_nil,
    List.append_nil, List.append_nil, List.append_nil, List.map_flatMap]
  simp only [filter_method_extractClassEntities]

/-- C8 (counterexample): a class exported from its module with a method
whose own syntax is not exported yields a method entity whose `exported`
flag is `false`, not the enclosing class's `true` — the extracted
`(name, exported)` pairs are `("C", true)` for the class and
`("C.m", false)` for its method. -/
theorem methodEntity_exported_counterexample :
    ((extractClassEntities (fun s => s) "f.ts"
        ⟨some "C", true, "class C", ⟨1, 5⟩,
          [⟨"m", false, "m(): void", ⟨2, 4⟩, "() => void"⟩], []⟩).map
      (fun e => (e.name, e.exported))) = [("C", true), ("C.m", false)] := by
  decide

end Explain
